import Mathlib

set_option maxRecDepth 4000

/-!
Verification development for the expense-tracker field-extraction core
(src/expense_app/app.py).  The Python functions `try_parse_date`,
`try_parse_amount`, `try_parse_vendor`, `normalize_amount`,
`extract_text_from_pdf` and `ils` are shallowly embedded below, together
with models of the library behaviour they invoke:

* the concrete regular expressions DATE_PATTERNS, AMOUNT_PATTERNS and
  VENDOR_HINTS are implemented as direct scanners on lists of characters,
  reproducing CPython re semantics (leftmost match, greedy quantifiers with
  backtracking, word boundaries, non-overlapping finditer);
* dateutil.parser.parse(candidate, dayfirst=True, fuzzy=True) is modelled
  on the token shapes the two date patterns can produce
  (digits separator digits separator digits);
* CPython float() is modelled on its decimal / exponent fragment, with the
  parsed value represented as an exact rational (binary-double rounding is
  abstracted away, as are the inf / nan word forms, which no amount pattern
  can produce);
* pdfplumber is abstracted to the outcome of opening the byte stream:
  either a parse failure (the exception) or the list of per-page texts
  that page.extract_text() would return.

Strings are processed as their underlying lists of characters; Python
whitespace / word-character classes are modelled on the character
repertoire the application works with (ASCII plus the Hebrew block).
-/

namespace ExpenseApp

/-- Python regex whitespace class (ASCII part): space, tab, newline,
carriage return, vertical tab, form feed.  Also the set stripped by
str.strip(). -/
def isWs (c : Char) : Bool :=
  c == ' ' || c == '\t' || c == '\n' || c == '\r' || c == '\x0b' || c == '\x0c'

/-- Python regex word character (for word boundaries): ASCII alphanumerics,
underscore, and letters of the Hebrew block (the repertoire appearing in
this application's inputs). -/
def isWordC (c : Char) : Bool :=
  c.isAlphanum || c == '_' || (0x5D0 ≤ c.toNat && c.toNat ≤ 0x5EA)

/-- Maximal leading run of ASCII digits. -/
def digitSpan : List Char → List Char × List Char
  | [] => ([], [])
  | c :: cs =>
    if c.isDigit then
      let (d, r) := digitSpan cs
      (c :: d, r)
    else ([], c :: cs)

/-- Numeric value of a big-endian list of digit characters
(how int() reads the matched digit groups). -/
def digitsVal (l : List Char) : Nat :=
  l.foldl (fun a c => 10 * a + (c.toNat - 48)) 0

/-- Python str.strip(): drop leading and trailing whitespace. -/
def stripList (l : List Char) : List Char :=
  List.rdropWhile isWs (l.dropWhile isWs)

/-- str.strip() on a String. -/
def stripS (s : String) : String :=
  (stripList s.data).asString

/-- One of the three separators accepted by both DATE_PATTERNS. -/
def isSep (c : Char) : Bool :=
  c == '.' || c == '/' || c == '-'

/-- Match of the first date pattern at the current position.
`prevW` says whether the character just before the position is a word
character (for the leading word boundary).  Pattern (raw):
backslash-b ( d one-to-two sep d one-to-two sep d two-to-four ) backslash-b.
Because the digit runs are maximal and digits, separators and word
boundaries use disjoint character classes, the greedy backtracking of the
original regex is equivalent to: take each maximal digit run and check its
length bounds, then check the trailing boundary.  Returns the captured
candidate and the rest of the input after the match. -/
def matchDate1At (prevW : Bool) (cs : List Char) : Option (List Char × List Char) :=
  if prevW then none else
  let (t1, r1) := digitSpan cs
  if t1.length < 1 || 2 < t1.length then none else
  match r1 with
  | s1 :: r2 =>
    if !isSep s1 then none else
    let (t2, r3) := digitSpan r2
    if t2.length < 1 || 2 < t2.length then none else
    match r3 with
    | s2 :: r4 =>
      if !isSep s2 then none else
      let (t3, r5) := digitSpan r4
      if t3.length < 2 || 4 < t3.length then none else
      if (match r5 with | [] => true | c :: _ => !isWordC c) then
        some (t1 ++ s1 :: t2 ++ s2 :: t3, r5)
      else none
    | [] => none
  | [] => none

/-- Match of the second date pattern (year first) at the current position:
backslash-b ( d four sep d one-to-two sep d one-to-two ) backslash-b. -/
def matchDate2At (prevW : Bool) (cs : List Char) : Option (List Char × List Char) :=
  if prevW then none else
  let (t1, r1) := digitSpan cs
  if t1.length != 4 then none else
  match r1 with
  | s1 :: r2 =>
    if !isSep s1 then none else
    let (t2, r3) := digitSpan r2
    if t2.length < 1 || 2 < t2.length then none else
    match r3 with
    | s2 :: r4 =>
      if !isSep s2 then none else
      let (t3, r5) := digitSpan r4
      if t3.length < 1 || 2 < t3.length then none else
      if (match r5 with | [] => true | c :: _ => !isWordC c) then
        some (t1 ++ s1 :: t2 ++ s2 :: t3, r5)
      else none
    | [] => none
  | [] => none

/-- re.finditer: scan left to right, at every position attempt the match;
on success emit the capture and continue after the match (non-overlapping),
otherwise advance one character.  Both date patterns end in a digit, so
after a match the previous character is always a word character.  The fuel
is one more than the number of characters, enough for every step since each
step consumes at least one character. -/
def finditerAux (m : Bool → List Char → Option (List Char × List Char)) :
    Nat → Bool → List Char → List (List Char)
  | 0, _, _ => []
  | Nat.succ fuel, prevW, cs =>
    match m prevW cs with
    | some (cap, r) => cap :: finditerAux m fuel true r
    | none =>
      match cs with
      | [] => []
      | c :: rest => finditerAux m fuel (isWordC c) rest

/-- All candidates collected by the loop over DATE_PATTERNS: the matches of
the first pattern over the whole text, then those of the second. -/
def dateCandidates (text : String) : List (List Char) :=
  finditerAux matchDate1At (text.data.length + 1) false text.data ++
    finditerAux matchDate2At (text.data.length + 1) false text.data

/-- A parsed calendar date (dateutil returns a datetime whose time part is
midnight for these candidates, so only the date matters). -/
structure PDate where
  y : Nat
  m : Nat
  d : Nat
deriving Repr, DecidableEq

/-- Sort key: for validated dates (month at most 12, day at most 31) this
order coincides with chronological order of the datetimes Python sorts. -/
def PDate.key (p : PDate) : Nat :=
  p.y * 10000 + p.m * 100 + p.d

/-- Split a candidate into its three digit groups and two separators.
Total on every string either date pattern can capture. -/
def splitCand (c : List Char) : Option (List Char × Char × List Char × Char × List Char) :=
  let (t1, r1) := digitSpan c
  if t1 = [] then none else
  match r1 with
  | s1 :: r2 =>
    if !isSep s1 then none else
    let (t2, r3) := digitSpan r2
    if t2 = [] then none else
    match r3 with
    | s2 :: r4 =>
      if !isSep s2 then none else
      let (t3, r5) := digitSpan r4
      if t3 = [] then none else
      if r5 = [] then some (t1, s1, t2, s2, t3) else none
    | [] => none
  | [] => none

/-- dateutil _ymd.resolve_ymd specialised to yearfirst=False, dayfirst=True
and three numeric tokens with no month or day name (the only shape the date
patterns produce).  `ystr0` records whether the first token was labelled as
a year because it had more than two digits.  Returns (year, month, day). -/
def resolveYmd (a b c : Nat) (ystr0 : Bool) : Nat × Nat × Nat :=
  if 31 < a || ystr0 then
    if c ≤ 12 then (a, c, b) else (a, b, c)
  else if 12 < a || b ≤ 12 then (c, b, a)
  else (c, a, b)

/-- The year dateutil's parser pivots two-digit years around: the current
year when the program runs, fixed here to the year of this verification. -/
def REF_YEAR : Nat := 2026

/-- dateutil _ymd.convertyear: a value below 100 with no explicit century
is placed in the century window centred on the current year. -/
def convertyear (y : Nat) (century : Bool) : Nat :=
  if y < 100 && !century then
    let y2 := y + 2000
    if 50 ≤ max (y2 - REF_YEAR) (REF_YEAR - y2) then
      (if y2 < REF_YEAR then y2 + 100 else y2 - 100)
    else y2
  else y

def isLeap (y : Nat) : Bool :=
  (y % 4 == 0 && y % 100 != 0) || y % 400 == 0

def daysInMonth (y m : Nat) : Nat :=
  if m == 2 then (if isLeap y then 29 else 28)
  else if m == 4 || m == 6 || m == 9 || m == 11 then 30
  else 31

/-- Model of dateutil.parser.parse(c, dayfirst=True, fuzzy=True) on the
candidate shapes digit-group separator digit-group separator digit-group.
Faithful to dateutil 2.x on those shapes:

* if exactly one separator is a dot, the lexer glues the adjacent digit
  groups and the dot into one decimal-looking token and parsing fails:
  either int() raises on it when it reaches _ymd, or the month lookup on
  it finds nothing, or the six-character hour branch fails in _parsems
  (with two dots the single glued token is re-split into clean numeric
  tokens, the same stream an equal non-dot separator produces);
* with equal separators all three groups join _ymd as strings inside one
  run of _parse_numeric_token, and a string of more than two digits is
  labelled as the year and sets the century flag; with unequal non-dot
  separators only the first two groups join as strings (the second
  separator breaks the three-member chain), the third group is processed
  as its own token and appended as a numeric value, which is labelled as
  the year and sets the century flag only when its value exceeds 100;
* a second year label raises (year already set);
* the remaining resolution and the century window follow resolve_ymd and
  convertyear; datetime() finally validates the calendar values. -/
def parseCandidate (cand : List Char) : Option PDate :=
  match splitCand cand with
  | none => none
  | some (t1, s1, t2, s2, t3) =>
    if (s1 == '.') != (s2 == '.') then none
    else
      let a := digitsVal t1
      let b := digitsVal t2
      let c := digitsVal t3
      let y1 := decide (2 < t1.length)
      let y2 := decide (2 < t2.length)
      let y3 := if s1 == s2 then decide (2 < t3.length) else decide (100 < c)
      if (y1 && y2) || (y1 && y3) || (y2 && y3) then none
      else
        let century := y1 || y2 || y3
        let r := resolveYmd a b c y1
        let y := convertyear r.1 century
        let m := r.2.1
        let d := r.2.2
        if 1 ≤ y && y ≤ 9999 && 1 ≤ m && m ≤ 12 && 1 ≤ d && d ≤ daysInMonth y m then
          some ⟨y, m, d⟩
        else none

/-- The parsed candidates that survive the year guard 2000 <= year <= 2100. -/
def validDates (text : String) : List PDate :=
  (dateCandidates text).filterMap fun c =>
    match parseCandidate c with
    | some d => if 2000 ≤ d.y && d.y ≤ 2100 then some d else none
    | none => none

/-- Stable insertion into a key-sorted list (inserts after equal keys). -/
def insertByKey (p : PDate) : List PDate → List PDate
  | [] => [p]
  | q :: qs => if q.key ≤ p.key then q :: insertByKey p qs else p :: q :: qs

/-- Stable sort by key: the observable behaviour of Python list.sort() on
these datetimes. -/
def sortByKey : List PDate → List PDate
  | [] => []
  | p :: ps => insertByKey p (sortByKey ps)

/-- Little-endian decimal digits, by fuelled division; the fuel bounds the
number of iterations and n itself is always enough.  Agrees with
Nat.digits 10 (proved below) but reduces structurally. -/
def digitsRevAux : Nat → Nat → List Nat
  | 0, _ => []
  | Nat.succ fuel, n => if n = 0 then [] else n % 10 :: digitsRevAux fuel (n / 10)

/-- Little-endian decimal digits of n (empty for 0). -/
def digitsRev (n : Nat) : List Nat :=
  digitsRevAux n n

/-- Big-endian decimal digit characters of a natural number. -/
def natChars (n : Nat) : List Char :=
  if n = 0 then ['0'] else ((digitsRev n).map Nat.digitChar).reverse

/-- Left-pad with zero digits to the given width. -/
def padZ (w : Nat) (l : List Char) : List Char :=
  List.replicate (w - l.length) '0' ++ l

/-- datetime.date().isoformat(): YYYY-MM-DD with zero padding. -/
def isoOfDate (p : PDate) : String :=
  (padZ 4 (natChars p.y) ++ '-' :: padZ 2 (natChars p.m) ++ '-' :: padZ 2 (natChars p.d)).asString

/-- try_parse_date from app.py: collect all matches of both date patterns,
parse permissively day-first, keep years in 2000..2100, sort, and return
the ISO form of the first (earliest); None when the text is empty or no
candidate survives. -/
def try_parse_date (text : String) : Option String :=
  if text = "" then none
  else
    match sortByKey (validDates text) with
    | [] => none
    | d :: _ => some (isoOfDate d)

/-! ## Amount extraction

AMOUNT_PATTERNS from app.py, in priority order (re.search is applied per
pattern; the first pattern that yields a match with a valid non-negative
value wins).  The numeric capture group is
digit ( digit-or-comma )* dot? digit-up-to-two,
all quantifiers greedy; since everything after the leading greedy run is
optional, the greedy path never fails and the capture is deterministic. -/

/-- Take up to two leading digits, greedily. -/
def upToTwoDigits : List Char → List Char × List Char
  | a :: b :: r =>
    if a.isDigit then
      if b.isDigit then ([a, b], r) else ([a], b :: r)
    else ([], a :: b :: r)
  | [a] => if a.isDigit then ([a], []) else ([], [a])
  | [] => ([], [])

/-- The numeric capture group of every amount pattern, matched at the
current position.  Returns the captured characters and the rest. -/
def numGroupAt (cs : List Char) : Option (List Char × List Char) :=
  match cs with
  | c :: rest =>
    if !c.isDigit then none else
    let (mid, r1) := rest.span (fun x => x.isDigit || x == ',')
    match r1 with
    | '.' :: r2 =>
      let (f, r3) := upToTwoDigits r2
      some (c :: mid ++ '.' :: f, r3)
    | _ => some (c :: mid, r1)
  | [] => none

/-- Match a literal character sequence. -/
def litAt : List Char → List Char → Option (List Char)
  | [], cs => some cs
  | l :: ls, c :: cs => if c == l then litAt ls cs else none
  | _ :: _, [] => none

/-- Skip an optional single character from the given set (greedy: taking it
is tried first, but the callers' following classes are disjoint from the
set, so taking it when present is equivalent to full backtracking). -/
def optC (set : List Char) (cs : List Char) : List Char :=
  match cs with
  | c :: r => if set.contains c then r else cs
  | [] => cs

/-- The common tail of the first two amount patterns after the phrase:
whitespace*, optional colon or dash, whitespace*, optional shekel sign,
whitespace*, then the numeric capture group.  Whitespace, colon/dash, the
shekel sign and digits are pairwise disjoint classes and the group must
start with a digit, so greedy consumption without backtracking is
equivalent to the regex's backtracking search. -/
def amountTailAt (cs : List Char) : Option (List Char) :=
  let r1 := optC [':', '-'] (cs.dropWhile isWs)
  let r2 := optC ['₪'] (r1.dropWhile isWs)
  (numGroupAt (r2.dropWhile isWs)).map Prod.fst

/-- The phrase stem sah-quote-kaf: the letters samekh he, an optional ASCII
double quote, then kaf. -/
def sahacAt (cs : List Char) : Option (List Char) := do
  let r1 ← litAt "סה".data cs
  litAt "כ".data (optC ['"'] r1)

/-- First amount pattern at a position: one of the four total-payable
phrasings followed by the amount tail.  Alternatives are tried in the
pattern's order; a later alternative is tried at the same position when an
earlier one (or its tail) fails, as in the regex's backtracking. -/
def matchAmount1At (cs : List Char) : Option (List Char) :=
  (do
    let r ← sahacAt cs
    let r ← litAt "לתשלום".data (r.dropWhile isWs)
    amountTailAt r) <|>
  (do
    let r ← sahacAt cs
    let r ← litAt "תשלום".data (r.dropWhile isWs)
    amountTailAt r) <|>
  (do
    let r ← litAt "סכום".data cs
    let r ← litAt "לתשלום".data (r.dropWhile isWs)
    amountTailAt r) <|>
  (do
    let r ← litAt "לתשלום".data cs
    amountTailAt r)

/-- Second amount pattern at a position: total-including-VAT phrasings. -/
def matchAmount2At (cs : List Char) : Option (List Char) :=
  (do
    let r ← sahacAt cs
    let r ← litAt "כולל".data (r.dropWhile isWs)
    let r ← litAt "מע".data (r.dropWhile isWs)
    let r ← litAt "מ".data (optC ['"'] r)
    amountTailAt r) <|>
  (do
    let r ← sahacAt cs
    let r ← litAt "כולל".data (r.dropWhile isWs)
    amountTailAt r)

/-- Third amount pattern at a position: a bare shekel sign, whitespace,
and the numeric group. -/
def matchAmount3At (cs : List Char) : Option (List Char) := do
  let r ← litAt "₪".data cs
  (numGroupAt (r.dropWhile isWs)).map Prod.fst

/-- re.search: try the position matcher at each position from the left and
return the first capture.  The fuel is one more than the text length. -/
def searchAt (m : List Char → Option (List Char)) :
    Nat → List Char → Option (List Char)
  | 0, _ => none
  | Nat.succ fuel, cs =>
    match m cs with
    | some g => some g
    | none =>
      match cs with
      | [] => none
      | _ :: rest => searchAt m fuel rest

/-- re.search over a String, returning capture group 1. -/
def reSearch (m : List Char → Option (List Char)) (text : String) : Option (List Char) :=
  searchAt m (text.data.length + 1) text.data

/-! ## normalize_amount: comma removal, strip, and a model of float() -/

/-- A run of digits in which single underscores may appear strictly between
digits (CPython numeric literal syntax accepted by float()).  Returns the
digits (underscores removed) and the unconsumed rest. -/
def digitRunUAux : List Char → List Char × List Char
  | [] => ([], [])
  | c :: rest =>
    if c.isDigit then
      let p := digitRunUAux rest
      (c :: p.1, p.2)
    else if c == '_' then
      match rest with
      | d :: rest2 =>
        if d.isDigit then
          let p := digitRunUAux rest2
          (d :: p.1, p.2)
        else ([], c :: rest)
      | [] => ([], [c])
    else ([], c :: rest)

/-- Leading digit run with embedded underscores; empty when the first
character is not a digit. -/
def digitRunU (cs : List Char) : List Char × List Char :=
  match cs with
  | c :: rest =>
    if c.isDigit then
      let p := digitRunUAux rest
      (c :: p.1, p.2)
    else ([], cs)
  | [] => ([], [])

/-- Exponent part: optional sign then a nonempty digit run.  Returns the
signed exponent and the rest; none when no digits follow the marker. -/
def expTail (cs : List Char) : Option (Int × List Char) :=
  let sr : Int × List Char :=
    match cs with
    | c :: r => if c == '+' then (1, r) else if c == '-' then (-1, r) else (1, cs)
    | [] => (1, cs)
  let ed := digitRunU sr.2
  if ed.1 = [] then none else some (sr.1 * (digitsVal ed.1 : Int), ed.2)

/-- Model of CPython float() on its plain decimal / scientific fragment:
optional sign, digits with optional single dot (at least one digit in the
mantissa), optional exponent; underscores are allowed strictly between
digits.  The value is returned exactly as a pair (z, k) denoting z / 10^k
(float's rounding to binary doubles is abstracted away; the word forms
inf / infinity / nan, which the amount patterns can never produce, are
outside the modelled fragment and rejected). -/
def pyFloatMag (cs : List Char) : Option (Int × Nat) :=
  let ipr := digitRunU cs
  let ip := ipr.1
  let fr : List Char × List Char :=
    match ipr.2 with
    | c :: r => if c == '.' then digitRunU r else ([], ipr.2)
    | [] => ([], ipr.2)
  let fp := fr.1
  if ip = [] && fp = [] then none else
  let ep : Option (Int × List Char) :=
    match fr.2 with
    | c :: r => if c == 'e' || c == 'E' then expTail r else some (0, fr.2)
    | [] => some (0, fr.2)
  match ep with
  | none => none
  | some (e, rest) =>
    if rest = [] then
      let z0 : Int := ((digitsVal ip * 10 ^ fp.length + digitsVal fp : Nat) : Int)
      if 0 ≤ e then some (z0 * 10 ^ e.toNat, fp.length)
      else some (z0, fp.length + e.natAbs)
    else none

/-- The sign stage of float(): an optional leading plus or minus applied to
the magnitude parse. -/
def pyFloatParts (cs : List Char) : Option (Int × Nat) :=
  match cs with
  | c :: r =>
    if c == '+' then pyFloatMag r
    else if c == '-' then (pyFloatMag r).map (fun p => (-p.1, p.2))
    else pyFloatMag cs
  | [] => none

/-- The exact rational denoted by a pyFloatParts result. -/
def partsVal (p : Int × Nat) : ℚ :=
  (p.1 : ℚ) / ((10 : ℚ) ^ p.2)

/-- normalize_amount from app.py: remove every comma, strip whitespace,
parse with float(); None on any parse failure. -/
def normalize_amount (s : String) : Option ℚ :=
  (pyFloatParts (stripList (s.data.filter (fun c => c != ',')))).map partsVal

/-- The value try_parse_amount extracts from one pattern's search result:
normalize the capture and keep it only when defined and non-negative. -/
def amountValue (g : List Char) : Option ℚ :=
  match normalize_amount g.asString with
  | none => none
  | some a => if 0 ≤ a then some a else none

/-- One iteration of the loop over AMOUNT_PATTERNS. -/
def amountFromSearch (m : List Char → Option (List Char)) (text : String) : Option ℚ :=
  match reSearch m text with
  | none => none
  | some g => amountValue g

/-- try_parse_amount from app.py: the three amount patterns in priority
order; the first pattern whose first match normalizes to a non-negative
number wins. -/
def try_parse_amount (text : String) : Option ℚ :=
  if text = "" then none
  else
    match amountFromSearch matchAmount1At text with
    | some a => some a
    | none =>
      match amountFromSearch matchAmount2At text with
      | some a => some a
      | none => amountFromSearch matchAmount3At text

/-! ## Vendor extraction

VENDOR_HINTS from app.py, each a phrase, optional separators, and a
greedy dot-plus capture group.  The dot of the capture group matches every
character except newline, so its class is not disjoint from whitespace and
the separator class; the regex's backtracking over the whitespace stars and
the optional colon/dash is reproduced explicitly: consumption choices are
enumerated in the backtracking order (greedy first) and the first choice
whose remainder starts with a non-newline character wins. -/

/-- The suffixes reachable by the whitespace star, most-consumed first
(the greedy order in which the regex tries them). -/
def wsChoices (cs : List Char) : List (List Char) :=
  (List.range ((cs.takeWhile isWs).length + 1)).reverse.map fun k => cs.drop k

/-- The suffixes reachable by an optional colon or dash, taking it first. -/
def colonChoices (cs : List Char) : List (List Char) :=
  match cs with
  | c :: r => if c == ':' || c == '-' then [r, cs] else [cs]
  | [] => [cs]

/-- The greedy dot-plus capture: the maximal run of non-newline characters,
required nonempty. -/
def dotPlusAt (cs : List Char) : Option (List Char) :=
  let cap := cs.takeWhile (fun c => c != '\n')
  if cap = [] then none else some cap

/-- Tail whitespace-star colon-or-dash-optional whitespace-star capture,
with full backtracking in greedy order. -/
def vendorTailColon (cs : List Char) : Option (List Char) :=
  (wsChoices cs).findSome? fun r1 =>
    (colonChoices r1).findSome? fun r2 =>
      (wsChoices r2).findSome? fun r3 => dotPlusAt r3

/-- Tail whitespace-star capture, with backtracking in greedy order. -/
def vendorTailPlain (cs : List Char) : Option (List Char) :=
  (wsChoices cs).findSome? fun r1 => dotPlusAt r1

/-- First vendor hint at a position: shem whitespace-star sapak, separators,
capture.  The whitespace star before the literal needs no backtracking:
whitespace and the literal's first letter are disjoint. -/
def matchHint1At (cs : List Char) : Option (List Char) := do
  let r1 ← litAt "שם".data cs
  let r2 ← litAt "ספק".data (r1.dropWhile isWs)
  vendorTailColon r2

/-- Second vendor hint at a position: sapak, separators, capture. -/
def matchHint2At (cs : List Char) : Option (List Char) := do
  let r1 ← litAt "ספק".data cs
  vendorTailColon r1

/-- Third vendor hint at a position: likhvod, whitespace, capture. -/
def matchHint3At (cs : List Char) : Option (List Char) := do
  let r1 ← litAt "לכבוד".data cs
  vendorTailPlain r1

/-- The loop over VENDOR_HINTS: re.search with each hint in order. -/
def hintSearch (text : String) : Option (List Char) :=
  match reSearch matchHint1At text with
  | some g => some g
  | none =>
    match reSearch matchHint2At text with
    | some g => some g
    | none => reSearch matchHint3At text

/-- re.sub of whitespace-run-of-two-or-more by a single space: scan left to
right; a whitespace character followed by another starts a maximal run,
which is replaced by one space; single whitespace characters pass through. -/
def collapseGo : Nat → List Char → List Char
  | _, [] => []
  | _, [c] => [c]
  | 0, l => l
  | Nat.succ fuel, c :: d :: cs =>
    if isWs c then
      if isWs d then ' ' :: collapseGo fuel ((d :: cs).dropWhile isWs)
      else c :: collapseGo fuel (d :: cs)
    else c :: collapseGo fuel (d :: cs)

/-- The substitution itself; the fuel, one unit per consumed character, is
ample at the list's length. -/
def collapseWs (l : List Char) : List Char :=
  collapseGo l.length l

/-- str.splitlines() restricted to the line separators occurring in this
application's texts: newline, carriage return, and their pair. -/
def splitLinesGo (cur : List Char) : List Char → List (List Char)
  | [] => if cur = [] then [] else [cur.reverse]
  | '\r' :: '\n' :: r => cur.reverse :: splitLinesGo [] r
  | '\n' :: r => cur.reverse :: splitLinesGo [] r
  | '\r' :: r => cur.reverse :: splitLinesGo [] r
  | c :: r => splitLinesGo (c :: cur) r

/-- str.splitlines() on a character list.  A trailing separator produces no
empty final line; an empty string produces no lines. -/
def splitLinesPy (l : List Char) : List (List Char) :=
  splitLinesGo [] l

/-- try_parse_vendor from app.py: the first hint match's capture, stripped,
whitespace-runs collapsed, truncated to 80 characters; otherwise the first
non-blank line stripped and truncated to 80 characters; empty input gives
the empty string. -/
def try_parse_vendor (text : String) : String :=
  if text = "" then ""
  else
    match hintSearch text with
    | some g => ((collapseWs (stripList g)).take 80).asString
    | none =>
      match ((splitLinesPy text.data).map stripList).filter (fun l => l ≠ []) with
      | l :: _ => (l.take 80).asString
      | [] => ""

/-! ## PDF text extraction and the upload path of main() -/

/-- The one failure mode of the extraction boundary: pdfplumber.open
raising on a byte stream that is not a well-formed PDF. -/
inductive DocParseError where
  | docParseError
deriving Repr, DecidableEq

/-- Outcome of handing the uploaded bytes to pdfplumber: either the open
call raises, or it yields pages whose extract_text() returns an optional
string (None when a page exposes no text). -/
inductive PdfOutcome where
  | malformed
  | doc (pages : List (Option String))

/-- The page loop of extract_text_from_pdf: substitute the empty string
for None, keep pages whose stripped text is nonempty. -/
def collectParts : List (Option String) → List String
  | [] => []
  | p :: ps =>
    let t := p.getD ""
    if stripS t ≠ "" then t :: collectParts ps else collectParts ps

/-- extract_text_from_pdf from app.py: on a well-formed document, join the
kept texts of the first five pages with newlines and strip the result; on a
malformed byte stream the pdfplumber exception escapes (the function body
has no handler). -/
def extract_text_from_pdf : PdfOutcome → Except DocParseError String
  | .malformed => .error .docParseError
  | .doc pages => .ok (stripS (String.intercalate "\n" (collectParts (pages.take 5))))

/-- The upload branch of main() (app.py lines 198-210): for a PDF, call
extract_text_from_pdf with no surrounding try/except, then run the three
extractors when text was extracted; non-PDF uploads bypass extraction.
Returns the extracted text and the three pre-filled guesses, or the
uncaught error. -/
def uploadExtraction (isPdf : Bool) (outcome : PdfOutcome) :
    Except DocParseError (String × Option String × Option ℚ × String) :=
  if isPdf then
    match extract_text_from_pdf outcome with
    | .error e => .error e
    | .ok t =>
      if t ≠ "" then .ok (t, try_parse_date t, try_parse_amount t, try_parse_vendor t)
      else .ok (t, none, none, "")
  else .ok ("", none, none, "")

/-! ## Currency display formatting (ils)

ils formats its argument with a comma-grouped two-decimal float format and
then swaps the separator roles by a three-step replace through the letter X.
The argument comes from the database as a float; a non-numeric argument
makes the format expression raise, which the bare except turns into the
empty string.  Floats are modelled as exact rationals; the inductive input
distinguishes a numeric argument from any non-numeric one. -/

inductive PyVal where
  | num (q : ℚ)
  | nonNum

/-- Round to the nearest integer, ties to even: the rounding of CPython
float formatting, applied here to the exact rational scaled by 100. -/
def roundHalfEvenZ (x : ℚ) : Int :=
  let f := ⌊x⌋
  let r := x - (f : ℚ)
  if r < 1 / 2 then f
  else if 1 / 2 < r then f + 1
  else if f % 2 = 0 then f else f + 1

/-- Insert the separator after every third character of the reversed digit
list (little-endian grouping from the right). -/
def group3Rev (sep : Char) : List Char → List Char
  | a :: b :: c :: d :: rest => a :: b :: c :: sep :: group3Rev sep (d :: rest)
  | l => l

/-- Group big-endian digits in threes from the right with the separator. -/
def group3 (sep : Char) (ds : List Char) : List Char :=
  (group3Rev sep ds.reverse).reverse

/-- Two-digit zero-padded rendering of a value below 100. -/
def pad2 (n : Nat) : List Char :=
  padZ 2 (natChars n)

/-- The Python format of n with comma grouping and two decimals
(format spec comma dot-two f), sign taken from the value. -/
def pyFormat2f (q : ℚ) : List Char :=
  let c := roundHalfEvenZ (q * 100)
  let a := c.natAbs
  (if q < 0 then ['-'] else []) ++ group3 ',' (natChars (a / 100)) ++ '.' :: pad2 (a % 100)

/-- Replace every occurrence of one character by another
(str.replace with single-character arguments). -/
def replaceAllC (a b : Char) (l : List Char) : List Char :=
  l.map fun c => if c == a then b else c

/-- The replace chain of ils: comma to X, dot to comma, X to dot. -/
def swapSeps (l : List Char) : List Char :=
  replaceAllC 'X' '.' (replaceAllC '.' ',' (replaceAllC ',' 'X' l))

/-- ils from app.py: shekel sign, comma-grouped two-decimal format, then
the separator swap; any exception (a non-numeric argument) yields the empty
string. -/
def ils : PyVal → String
  | .num q => (swapSeps ('₪' :: pyFormat2f q)).asString
  | .nonNum => ""

/-- The formatting the spec describes, built directly: the shekel symbol,
the digits grouped in thousands by dots, a comma as decimal separator, two
decimal digits.  Stated from the spec's words for comparison with ils. -/
def ilsClaim (q : ℚ) : String :=
  let c := roundHalfEvenZ (q * 100)
  let a := c.natAbs
  ('₪' :: group3 '.' (natChars (a / 100)) ++ ',' :: pad2 (a % 100)).asString

/-! ## Decimal rendering of a normalize_amount result (for idempotence) -/

/-- The least exponent e within 0..d such that d divides 10^e (it exists
whenever d divides some power of 10), raised to at least 1 so that the
rendering always carries a decimal point, as str() of a Python float does. -/
def denExp (d : Nat) : Nat :=
  match (List.range (d + 1)).find? (fun i => 10 ^ i % d == 0) with
  | some i => max 1 i
  | none => 1

/-- The decimal string form of a rational produced by normalize_amount:
sign, integer digits, a dot, and a fixed number of fraction digits chosen
from the denominator.  For results of normalize_amount the denominator
divides a power of ten, and normalizing this string returns the value. -/
def renderDec (q : ℚ) : String :=
  let d := q.den
  let e := denExp d
  let m := q.num.natAbs * (10 ^ e / d)
  ((if q < 0 then ['-'] else []) ++
    natChars (m / 10 ^ e) ++ '.' :: padZ e (natChars (m % 10 ^ e))).asString

/-! ## Lemmas: the sorted head is the key-minimum (date tie-break) -/

theorem insertByKey_head {p d : PDate} {l rest : List PDate}
    (h : insertByKey p l = d :: rest) :
    d = p ∨ ∃ t, l = d :: t := by
  cases l with
  | nil =>
    simp only [insertByKey, List.cons.injEq] at h
    exact Or.inl h.1.symm
  | cons q qs =>
    by_cases hq : q.key ≤ p.key
    · simp only [insertByKey, if_pos hq, List.cons.injEq] at h
      exact Or.inr ⟨qs, by rw [h.1]⟩
    · simp only [insertByKey, if_neg hq, List.cons.injEq] at h
      exact Or.inl h.1.symm

theorem amountValue_nonneg {g : List Char} {q : ℚ} (h : amountValue g = some q) :
    0 ≤ q := by
  unfold amountValue at h
  cases hn : normalize_amount g.asString with
  | none => rw [hn] at h; exact absurd h (by simp)
  | some a =>
    rw [hn] at h
    by_cases ha : 0 ≤ a
    · simp only [if_pos ha, Option.some.injEq] at h
      exact h ▸ ha
    · simp [if_neg ha] at h

theorem amountFromSearch_nonneg {m : List Char → Option (List Char)} {t : String} {q : ℚ}
    (h : amountFromSearch m t = some q) : 0 ≤ q := by
  unfold amountFromSearch at h
  cases hr : reSearch m t with
  | none => rw [hr] at h; exact absurd h (by simp)
  | some g => rw [hr] at h; exact amountValue_nonneg h

theorem reSearch_empty_eq_none {m : List Char → Option (List Char)} (hm : m [] = none) :
    reSearch m "" = none := by
  simp [reSearch, searchAt, hm]

/-- C2: for every input text, try_parse_amount never returns a negative
number; once the first (total-payable) pattern has a match whose value is
valid, that value is returned and the lower-priority patterns are not
consulted, and likewise the second pattern beats the third; the text
containing a bare shekel-total 50 before a total-payable 120.50 yields
120.50. -/
theorem amount_priority_nonneg :
    (∀ (t : String) (q : ℚ), try_parse_amount t = some q → 0 ≤ q) ∧
    (∀ (t : String) (g : List Char) (v : ℚ),
      reSearch matchAmount1At t = some g → amountValue g = some v →
      try_parse_amount t = some v) ∧
    (∀ (t : String) (g : List Char) (v : ℚ),
      amountFromSearch matchAmount1At t = none →
      reSearch matchAmount2At t = some g → amountValue g = some v →
      try_parse_amount t = some v) ∧
    try_parse_amount "סה\"כ: ₪50\nסה\"כ לתשלום: ₪120.50" = some (120.50 : ℚ) := by
  refine ⟨?_, ?_, ?_, ?_⟩
  · intro t q h
    unfold try_parse_amount at h
    by_cases ht : t = ""
    · rw [if_pos ht] at h; exact absurd h (by simp)
    · rw [if_neg ht] at h
      cases h1 : amountFromSearch matchAmount1At t with
      | some a =>
        rw [h1] at h
        simp only [Option.some.injEq] at h
        exact h ▸ amountFromSearch_nonneg h1
      | none =>
        rw [h1] at h
        cases h2 : amountFromSearch matchAmount2At t with
        | some a =>
          rw [h2] at h
          simp only [Option.some.injEq] at h
          exact h ▸ amountFromSearch_nonneg h2
        | none =>
          rw [h2] at h
          exact amountFromSearch_nonneg h
  · intro t g v hg hv
    have ht : t ≠ "" := by
      intro he
      rw [he, reSearch_empty_eq_none (by decide)] at hg
      exact absurd hg (by simp)
    have h1 : amountFromSearch matchAmount1At t = some v := by
      unfold amountFromSearch
      rw [hg]
      exact hv
    unfold try_parse_amount
    rw [if_neg ht, h1]
  · intro t g v h1 hg hv
    have ht : t ≠ "" := by
      intro he
      rw [he, reSearch_empty_eq_none (by decide)] at hg
      exact absurd hg (by simp)
    have h2 : amountFromSearch matchAmount2At t = some v := by
      unfold amountFromSearch
      rw [hg]
      exact hv
    unfold try_parse_amount
    rw [if_neg ht, h1, h2]
  · with_unfolding_all decide

/-- Witness for C2: the second conjunct applied at a concrete text in which
the total-payable pattern matches with capture 7, discharging both
hypotheses by evaluation. -/
theorem amount_priority_nonneg_witness :
    try_parse_amount "לתשלום: ₪7" = some (7 : ℚ) :=
  amount_priority_nonneg.2.1 "לתשלום: ₪7" "7".data 7 (by decide)
    (by with_unfolding_all decide)

/-! ## PDF extraction: C3 (error propagation) and C5 (page loop) -/

/-- C3 counterexample: on a malformed PDF byte stream the upload action of
main() does not fall back to an empty extracted text; the DocumentParseError
raised inside extract_text_from_pdf escapes uncaught (main has no handler
around the call), so the upload path ends in the error, not in the empty
extraction the claim describes. -/
theorem upload_malformed_not_recovered :
    uploadExtraction true PdfOutcome.malformed ≠
        Except.ok ("", none, none, "") ∧
    uploadExtraction true PdfOutcome.malformed =
        Except.error DocParseError.docParseError := by
  exact ⟨fun h => Except.noConfusion h, rfl⟩

theorem uploadExtraction_doc_ok (pages : List (Option String)) :
    ∃ v, uploadExtraction true (PdfOutcome.doc pages) = Except.ok v := by
  simp only [uploadExtraction, extract_text_from_pdf]
  by_cases h : stripS (String.intercalate "\n" (collectParts (pages.take 5))) ≠ ""
  · rw [if_pos h]
    exact ⟨_, rfl⟩
  · rw [if_neg h]
    exact ⟨_, rfl⟩

/-- C3 (amended): if the uploaded byte stream is not a well-formed PDF, the
extraction raises DocumentParseError and the upload action propagates it:
no caller converts it into an empty extracted text, and a well-formed
document never produces the error.  (The claim's recovery behaviour is
absent from the code.) -/
theorem pdf_error_propagates :
    (∀ outcome : PdfOutcome, (∃ e, uploadExtraction true outcome = Except.error e) ↔
      outcome = PdfOutcome.malformed) ∧
    extract_text_from_pdf PdfOutcome.malformed =
      Except.error DocParseError.docParseError := by
  constructor
  · intro outcome
    cases outcome with
    | malformed => exact ⟨fun _ => rfl, fun _ => ⟨.docParseError, rfl⟩⟩
    | doc pages =>
      constructor
      · rintro ⟨e, he⟩
        obtain ⟨v, hv⟩ := uploadExtraction_doc_ok pages
        rw [hv] at he
        exact Except.noConfusion he
      · intro h
        exact absurd h (by simp)
  · rfl

/-- Witness for C3's amended theorem: the forward direction at the
malformed outcome. -/
theorem pdf_error_propagates_witness :
    ∃ e, uploadExtraction true PdfOutcome.malformed = Except.error e :=
  (pdf_error_propagates.1 PdfOutcome.malformed).mpr rfl

theorem collectParts_eq (l : List (Option String)) :
    collectParts l = (l.map (fun p => p.getD "")).filter (fun t => stripS t != "") := by
  induction l with
  | nil => rfl
  | cons p ps ih =>
    by_cases h : stripS (p.getD "") = ""
    · simp [collectParts, h, ih]
    · simp [collectParts, h, ih]

theorem collectParts_strip_ne (l : List (Option String)) :
    ∀ t ∈ collectParts l, stripS t ≠ "" := by
  induction l with
  | nil => intro t ht; exact absurd ht (List.not_mem_nil t)
  | cons p ps ih =>
    intro t ht
    unfold collectParts at ht
    by_cases h : stripS (p.getD "") = ""
    · rw [if_neg (by simpa using h)] at ht
      exact ih t ht
    · rw [if_pos (by simpa using h)] at ht
      rcases List.mem_cons.mp ht with rfl | h2
      · exact h
      · exact ih t h2

/-- C5: for a well-formed PDF, extract_text_from_pdf uses at most the first
five pages, keeps exactly the pages whose stripped text is nonempty (pages
exposing no text counting as empty), joins the kept texts with single
newlines in page order, and strips the final string. -/
theorem extract_first_five_pages :
    (∀ pages : List (Option String), extract_text_from_pdf (.doc pages) =
      .ok (stripS (String.intercalate "\n"
        (((pages.take 5).map (fun p => p.getD "")).filter (fun t => stripS t != ""))))) ∧
    (∀ pages : List (Option String), extract_text_from_pdf (.doc pages) =
      extract_text_from_pdf (.doc (pages.take 5))) ∧
    (∀ pages : List (Option String), ∀ t ∈ collectParts (pages.take 5), stripS t ≠ "") := by
  refine ⟨?_, ?_, ?_⟩
  · intro pages
    show Except.ok (stripS (String.intercalate "\n" (collectParts (pages.take 5)))) =
      Except.ok (stripS (String.intercalate "\n"
        (((pages.take 5).map (fun p => p.getD "")).filter (fun t => stripS t != ""))))
    rw [collectParts_eq]
  · intro pages
    show Except.ok (stripS (String.intercalate "\n" (collectParts (pages.take 5)))) =
      Except.ok (stripS (String.intercalate "\n" (collectParts ((pages.take 5).take 5))))
    rw [List.take_take, Nat.min_self]
  · intro pages
    exact collectParts_strip_ne (pages.take 5)

/-- Witness for C5: the theorem applied to a concrete page list, where the
kept page "a" indeed strips to a nonempty string. -/
theorem extract_first_five_pages_witness :
    stripS "a" ≠ "" :=
  extract_first_five_pages.2.2 [some "a", some "   ", none, some "b"] "a" (by decide)

/-- C7: on empty input text the three extractors raise nothing and return
no date, no amount, and the empty vendor string. -/
theorem extractors_on_empty_text :
    try_parse_date "" = none ∧ try_parse_amount "" = none ∧ try_parse_vendor "" = "" :=
  ⟨rfl, rfl, rfl⟩

/-! ## Lemmas on whitespace collapsing and stripping (vendor claims) -/

/-- Two adjacent whitespace characters somewhere in the list. -/
def hasWsPair : List Char → Bool
  | a :: b :: r => (isWs a && isWs b) || hasWsPair (b :: r)
  | _ => false

theorem hasWsPair_cons_of_head {a : Char} {l : List Char}
    (h1 : ∀ c, l.head? = some c → (isWs a && isWs c) = false)
    (h2 : hasWsPair l = false) : hasWsPair (a :: l) = false := by
  cases l with
  | nil => rfl
  | cons b r =>
    have := h1 b rfl
    simp only [hasWsPair, this, Bool.false_or]
    exact h2

theorem collapseGo_head_of_not_ws {fuel : Nat} {l : List Char} {c : Char}
    (hh : l.head? = some c) (hc : isWs c = false) :
    (collapseGo fuel l).head? = some c := by
  cases l with
  | nil => simp at hh
  | cons x xs =>
    simp only [List.head?_cons, Option.some.injEq] at hh
    subst hh
    cases xs with
    | nil => cases fuel <;> rfl
    | cons y ys =>
      cases fuel with
      | zero => rfl
      | succ fuel => simp [collapseGo, hc]

theorem collapseGo_hasWsPair {fuel : Nat} :
    ∀ l : List Char, l.length ≤ fuel → hasWsPair (collapseGo fuel l) = false := by
  induction fuel with
  | zero =>
    intro l hl
    have : l = [] := List.length_eq_zero.mp (Nat.le_zero.mp hl)
    subst this
    rfl
  | succ fuel ih =>
    intro l hl
    match l with
    | [] => rfl
    | [c] => rfl
    | c :: d :: cs =>
      simp only [List.length_cons] at hl
      by_cases hc : isWs c = true
      · by_cases hd : isWs d = true
        · have hrest : ((d :: cs).dropWhile isWs).length ≤ fuel := by
            have h1 : ((d :: cs).dropWhile isWs).length ≤ (d :: cs).length :=
              (List.dropWhile_suffix isWs).sublist.length_le
            simp only [List.length_cons] at h1
            omega
          simp only [collapseGo, hc, hd, if_pos]
          refine hasWsPair_cons_of_head ?_ (ih _ hrest)
          intro e he
          cases hh : ((d :: cs).dropWhile isWs).head? with
          | none =>
            have hnil : (d :: cs).dropWhile isWs = [] := by
              cases h0 : (d :: cs).dropWhile isWs with
              | nil => rfl
              | cons a b => rw [h0] at hh; exact absurd hh (by simp)
            rw [hnil] at he
            exact absurd he (by cases fuel <;> simp [collapseGo])
          | some x =>
            have hx : isWs x = false := by
              have hm := List.head?_dropWhile_not isWs (d :: cs)
              rw [hh] at hm
              exact hm
            rw [collapseGo_head_of_not_ws hh hx] at he
            rcases Option.some.injEq .. ▸ he with rfl
            simp [hx]
        · have hd' : isWs d = false := by simpa using hd
          have hrest : (d :: cs).length ≤ fuel := by
            simp only [List.length_cons]; omega
          simp only [collapseGo, hc, hd', if_pos, Bool.false_eq_true, if_neg,
            Bool.not_eq_true]
          refine hasWsPair_cons_of_head ?_ (ih _ hrest)
          intro e he
          rw [@collapseGo_head_of_not_ws _ (d :: cs) d rfl hd'] at he
          rcases Option.some.injEq .. ▸ he with rfl
          simp [hd']
      · have hc' : isWs c = false := by simpa using hc
        have hrest : (d :: cs).length ≤ fuel := by
          simp only [List.length_cons]; omega
        simp only [collapseGo, hc', Bool.false_eq_true, if_neg, Bool.not_eq_true]
        refine hasWsPair_cons_of_head ?_ (ih _ hrest)
        intro e _
        simp [hc']

theorem hasWsPair_take {l : List Char} (h : hasWsPair l = false) (n : Nat) :
    hasWsPair (l.take n) = false := by
  induction l generalizing n with
  | nil => simp [List.take_nil]; rfl
  | cons a l ih =>
    cases n with
    | zero => rfl
    | succ n =>
      rw [List.take_succ_cons]
      cases l with
      | nil => simp [List.take_nil]; rfl
      | cons b r =>
        simp only [hasWsPair, Bool.or_eq_false_iff] at h
        cases n with
        | zero => rfl
        | succ n =>
          rw [List.take_succ_cons]
          have htail := ih h.2 (n + 1)
          rw [List.take_succ_cons] at htail
          simp only [hasWsPair, Bool.or_eq_false_iff]
          exact ⟨h.1, htail⟩

theorem collapseGo_run {fuel : Nat} {x d : Char} {cs : List Char}
    (hx : isWs x = true) (hd : isWs d = true) :
    collapseGo (fuel + 1) (x :: d :: cs) = ' ' :: collapseGo fuel ((d :: cs).dropWhile isWs) := by
  simp [collapseGo, hx, hd]

theorem collapseGo_single_ws {fuel : Nat} {x d : Char} {cs : List Char}
    (hx : isWs x = true) (hd : isWs d = false) :
    collapseGo (fuel + 1) (x :: d :: cs) = x :: collapseGo fuel (d :: cs) := by
  simp [collapseGo, hx, hd]

theorem collapseGo_word {fuel : Nat} {x d : Char} {cs : List Char}
    (hx : isWs x = false) :
    collapseGo (fuel + 1) (x :: d :: cs) = x :: collapseGo fuel (d :: cs) := by
  simp [collapseGo, hx]

theorem collapseGo_getLast {fuel : Nat} :
    ∀ (l : List Char) (c : Char), l.length ≤ fuel → l.getLast? = some c →
      isWs c = false → (collapseGo fuel l).getLast? = some c := by
  induction fuel with
  | zero =>
    intro l c hl hc _
    have : l = [] := List.length_eq_zero.mp (Nat.le_zero.mp hl)
    subst this
    exact absurd hc (by simp)
  | succ fuel ih =>
    intro l c hl hc hwc
    match l with
    | [] => exact absurd hc (by simp)
    | [x] =>
      simp only [List.getLast?_singleton, Option.some.injEq] at hc
      subst hc
      rfl
    | x :: d :: cs =>
      simp only [List.length_cons] at hl
      rw [List.getLast?_cons_cons] at hc
      have hdl : (d :: cs).length ≤ fuel := by
        simp only [List.length_cons]; omega
      by_cases hx : isWs x = true
      · by_cases hd : isWs d = true
        · have hrl : ((d :: cs).dropWhile isWs).length ≤ fuel := by
            have h1 : ((d :: cs).dropWhile isWs).length ≤ (d :: cs).length :=
              (List.dropWhile_suffix isWs).sublist.length_le
            simp only [List.length_cons] at h1
            omega
          have hne : (d :: cs).dropWhile isWs ≠ [] := by
            intro h0
            have hall := (List.dropWhile_eq_nil_iff).mp h0
            have hmem : c ∈ d :: cs := List.mem_of_getLast?_eq_some hc
            have := hall c hmem
            rw [hwc] at this
            exact absurd this (by simp)
          have hlast : ((d :: cs).dropWhile isWs).getLast? = some c := by
            obtain ⟨pre, hpre⟩ := (show (d :: cs).dropWhile isWs <:+ d :: cs from List.dropWhile_suffix isWs)
            rw [← hpre, List.getLast?_append] at hc
            cases hgl : ((d :: cs).dropWhile isWs).getLast? with
            | none => exact absurd (List.getLast?_eq_none_iff.mp hgl) hne
            | some y => rw [hgl] at hc; simpa using hc
          have hres := ih _ c hrl hlast hwc
          rw [collapseGo_run hx hd]
          cases hcg : collapseGo fuel ((d :: cs).dropWhile isWs) with
          | nil => rw [hcg] at hres; exact absurd hres (by simp)
          | cons a b =>
            rw [hcg] at hres
            rw [List.getLast?_cons_cons]
            exact hres
        · have hd2 : isWs d = false := by simpa using hd
          have hres := ih _ c hdl hc hwc
          rw [collapseGo_single_ws hx hd2]
          cases hcg : collapseGo fuel (d :: cs) with
          | nil => rw [hcg] at hres; exact absurd hres (by simp)
          | cons a b =>
            rw [hcg] at hres
            rw [List.getLast?_cons_cons]
            exact hres
      · have hx2 : isWs x = false := by simpa using hx
        have hres := ih _ c hdl hc hwc
        rw [collapseGo_word hx2]
        cases hcg : collapseGo fuel (d :: cs) with
        | nil => rw [hcg] at hres; exact absurd hres (by simp)
        | cons a b =>
          rw [hcg] at hres
          rw [List.getLast?_cons_cons]
          exact hres

theorem mem_collapseGo {fuel : Nat} :
    ∀ {l : List Char} {x : Char}, x ∈ collapseGo fuel l → x ∈ l ∨ x = ' ' := by
  induction fuel with
  | zero =>
    intro l x hx
    match l with
    | [] => exact absurd hx (List.not_mem_nil x)
    | [c] => exact Or.inl hx
    | c :: d :: cs => exact Or.inl hx
  | succ fuel ih =>
    intro l x hx
    match l with
    | [] => exact absurd hx (List.not_mem_nil x)
    | [c] => exact Or.inl hx
    | c :: d :: cs =>
      by_cases hc : isWs c = true
      · by_cases hd : isWs d = true
        · simp only [collapseGo, hc, hd, if_pos] at hx
          rcases List.mem_cons.mp hx with rfl | hx2
          · exact Or.inr rfl
          · rcases ih hx2 with hm | he
            · exact Or.inl (List.mem_cons_of_mem c ((List.dropWhile_suffix isWs).sublist.subset hm))
            · exact Or.inr he
        · have hd' : isWs d = false := by simpa using hd
          simp only [collapseGo, hc, hd', Bool.false_eq_true, if_neg, if_pos,
            Bool.not_eq_true] at hx
          rcases List.mem_cons.mp hx with rfl | hx2
          · exact Or.inl (List.mem_cons_self ..)
          · rcases ih hx2 with hm | he
            · exact Or.inl (List.mem_cons_of_mem c hm)
            · exact Or.inr he
      · have hc' : isWs c = false := by simpa using hc
        simp only [collapseGo, hc', Bool.false_eq_true, if_neg, Bool.not_eq_true] at hx
        rcases List.mem_cons.mp hx with rfl | hx2
        · exact Or.inl (List.mem_cons_self ..)
        · rcases ih hx2 with hm | he
          · exact Or.inl (List.mem_cons_of_mem c hm)
          · exact Or.inr he

theorem stripList_subset {l : List Char} : ∀ x ∈ stripList l, x ∈ l := by
  intro x hx
  unfold stripList at hx
  exact (List.dropWhile_suffix isWs).sublist.subset
    ((List.rdropWhile_prefix isWs _).sublist.subset hx)

theorem stripList_head_not_ws {l : List Char} {c : Char}
    (h : (stripList l).head? = some c) : isWs c = false := by
  unfold stripList at h
  obtain ⟨t, ht⟩ := List.rdropWhile_prefix isWs (l.dropWhile isWs)
  have hne : List.rdropWhile isWs (l.dropWhile isWs) ≠ [] := by
    intro h0; rw [h0] at h; exact absurd h (by simp)
  have hh : (l.dropWhile isWs).head? = some c := by
    rw [← ht, List.head?_append, h]
    rfl
  have hm := List.head?_dropWhile_not isWs l
  rw [hh] at hm
  exact hm

theorem stripList_getLast_not_ws {l : List Char} {c : Char}
    (h : (stripList l).getLast? = some c) : isWs c = false := by
  unfold stripList at h
  have hne : List.rdropWhile isWs (l.dropWhile isWs) ≠ [] := by
    intro h0; rw [h0] at h; exact absurd h (by simp)
  have hlast := List.rdropWhile_last_not isWs (l.dropWhile isWs) hne
  rw [List.getLast?_eq_getLast _ hne, Option.some.injEq] at h
  rw [h] at hlast
  simpa using hlast

theorem searchAt_inv {m : List Char → Option (List Char)} {fuel : Nat} :
    ∀ {cs g}, searchAt m fuel cs = some g → ∃ r, m r = some g := by
  induction fuel with
  | zero => intro cs g h; exact absurd h (by simp [searchAt])
  | succ fuel ih =>
    intro cs g h
    simp only [searchAt] at h
    cases hm : m cs with
    | some g2 =>
      rw [hm] at h
      simp only [Option.some.injEq] at h
      exact ⟨cs, hm.trans (by rw [h])⟩
    | none =>
      rw [hm] at h
      cases cs with
      | nil => exact absurd h (by simp)
      | cons c rest => exact ih h

theorem reSearch_inv {m : List Char → Option (List Char)} {t : String} {g : List Char}
    (h : reSearch m t = some g) : ∃ r, m r = some g :=
  searchAt_inv h

theorem vendorTailColon_inv {cs g : List Char} (h : vendorTailColon cs = some g) :
    ∃ r, dotPlusAt r = some g := by
  unfold vendorTailColon at h
  obtain ⟨r1, _, h1⟩ := List.exists_of_findSome?_eq_some h
  obtain ⟨r2, _, h2⟩ := List.exists_of_findSome?_eq_some h1
  obtain ⟨r3, _, h3⟩ := List.exists_of_findSome?_eq_some h2
  exact ⟨r3, h3⟩

theorem vendorTailPlain_inv {cs g : List Char} (h : vendorTailPlain cs = some g) :
    ∃ r, dotPlusAt r = some g := by
  unfold vendorTailPlain at h
  obtain ⟨r1, _, h1⟩ := List.exists_of_findSome?_eq_some h
  exact ⟨r1, h1⟩

theorem hintSearch_inv {t : String} {g : List Char} (h : hintSearch t = some g) :
    ∃ r, dotPlusAt r = some g := by
  unfold hintSearch at h
  cases h1 : reSearch matchHint1At t with
  | some g1 =>
    rw [h1] at h
    simp only [Option.some.injEq] at h
    subst h
    obtain ⟨r, hr⟩ := reSearch_inv h1
    unfold matchHint1At at hr
    rcases Option.bind_eq_some.mp hr with ⟨r1, _, hr2⟩
    rcases Option.bind_eq_some.mp hr2 with ⟨r2, _, hr3⟩
    exact vendorTailColon_inv hr3
  | none =>
    rw [h1] at h
    cases h2 : reSearch matchHint2At t with
    | some g2 =>
      rw [h2] at h
      simp only [Option.some.injEq] at h
      subst h
      obtain ⟨r, hr⟩ := reSearch_inv h2
      unfold matchHint2At at hr
      rcases Option.bind_eq_some.mp hr with ⟨r1, _, hr2⟩
      exact vendorTailColon_inv hr2
    | none =>
      rw [h2] at h
      obtain ⟨r, hr⟩ := reSearch_inv h
      unfold matchHint3At at hr
      rcases Option.bind_eq_some.mp hr with ⟨r1, _, hr2⟩
      exact vendorTailPlain_inv hr2

theorem dotPlusAt_no_newline {r g : List Char} (h : dotPlusAt r = some g) :
    '\n' ∉ g := by
  unfold dotPlusAt at h
  by_cases hc : r.takeWhile (fun c => c != '\n') = []
  · rw [if_pos hc] at h; exact absurd h (by simp)
  · rw [if_neg hc] at h
    simp only [Option.some.injEq] at h
    subst h
    intro hmem
    have := List.mem_takeWhile_imp hmem
    simp at this

theorem splitLinesGo_no_newline :
    ∀ (cur l : List Char), (∀ x ∈ cur, x ≠ '\n' ∧ x ≠ '\r') →
    ∀ line ∈ splitLinesGo cur l, ∀ x ∈ line, x ≠ '\n' ∧ x ≠ '\r' := by
  intro cur l
  induction cur, l using splitLinesGo.induct with
  | case1 =>
    intro hcur line hline
    simp [splitLinesGo] at hline
  | case2 cur hne =>
    intro hcur line hline
    simp only [splitLinesGo, if_neg hne, List.mem_singleton] at hline
    subst hline
    intro x hx
    exact hcur x (List.mem_reverse.mp hx)
  | case3 cur r ih =>
    intro hcur line hline
    simp only [splitLinesGo, List.mem_cons] at hline
    rcases hline with rfl | h2
    · intro x hx; exact hcur x (List.mem_reverse.mp hx)
    · exact ih (by intro x hx; exact absurd hx (List.not_mem_nil x)) line h2
  | case4 cur r ih =>
    intro hcur line hline
    simp only [splitLinesGo, List.mem_cons] at hline
    rcases hline with rfl | h2
    · intro x hx; exact hcur x (List.mem_reverse.mp hx)
    · exact ih (by intro x hx; exact absurd hx (List.not_mem_nil x)) line h2
  | case5 cur r hnot ih =>
    intro hcur line hline
    rw [splitLinesGo.eq_4 cur r hnot, List.mem_cons] at hline
    rcases hline with rfl | h2
    · intro x hx; exact hcur x (List.mem_reverse.mp hx)
    · exact ih (by intro x hx; exact absurd hx (List.not_mem_nil x)) line h2
  | case6 cur c r h1 h2 h3 ih =>
    intro hcur line hline
    rw [splitLinesGo.eq_5 cur c r h1 h2 h3] at hline
    refine ih ?_ line hline
    intro x hx
    rcases List.mem_cons.mp hx with rfl | hx2
    · exact ⟨fun he => h2 he, fun he => h3 he⟩
    · exact hcur x hx2

theorem asString_data {l : List Char} : (l.asString).data = l := rfl

theorem asString_length {l : List Char} : (l.asString).length = l.length := rfl

theorem head?_take_pos {l : List Char} {n : Nat} (h : 0 < n) :
    (l.take n).head? = l.head? := by
  cases l with
  | nil => simp
  | cons a r =>
    cases n with
    | zero => exact absurd h (by omega)
    | succ n => rw [List.take_succ_cons]; rfl

/-- The three result shapes of try_parse_vendor: empty text, a hint match,
or the first-non-blank-line fallback. -/
theorem try_parse_vendor_cases (text : String) :
    try_parse_vendor text = "" ∨
    (∃ g, hintSearch text = some g ∧
      try_parse_vendor text = ((collapseWs (stripList g)).take 80).asString) ∨
    (∃ line rest,
      ((splitLinesPy text.data).map stripList).filter (fun l => l ≠ []) = line :: rest ∧
      (∃ orig ∈ splitLinesPy text.data, line = stripList orig) ∧
      try_parse_vendor text = (line.take 80).asString) := by
  unfold try_parse_vendor
  by_cases ht : text = ""
  · rw [if_pos ht]; exact Or.inl rfl
  · rw [if_neg ht]
    cases hh : hintSearch text with
    | some g => exact Or.inr (Or.inl ⟨g, rfl, rfl⟩)
    | none =>
      cases hf : ((splitLinesPy text.data).map stripList).filter (fun l => l ≠ []) with
      | nil => exact Or.inl rfl
      | cons line rest =>
        refine Or.inr (Or.inr ⟨line, rest, rfl, ?_, rfl⟩)
        have hmem : line ∈ ((splitLinesPy text.data).map stripList).filter (fun l => l ≠ []) := by
          rw [hf]; exact List.mem_cons_self ..
        have hmap : line ∈ (splitLinesPy text.data).map stripList := List.mem_of_mem_filter hmem
        obtain ⟨orig, ho, heq⟩ := List.mem_map.mp hmap
        exact ⟨orig, ho, heq.symm⟩

theorem hintSearch_empty : hintSearch "" = none := by decide

/-- C4 counterexample: the claim asserts whitespace runs are collapsed on
the fallback path too, with the example text Supplier-colon Acme Corp; but
that text matches no Hebrew hint, takes the fallback path, and is returned
with both three-space runs intact (and not equal to "Acme Corp"). -/
theorem vendor_fallback_keeps_ws_run :
    try_parse_vendor "Supplier:   Acme   Corp" = "Supplier:   Acme   Corp" ∧
    hasWsPair (try_parse_vendor "Supplier:   Acme   Corp").data = true ∧
    try_parse_vendor "Supplier:   Acme   Corp" ≠ "Acme Corp" := by
  exact ⟨by decide, by decide, by decide⟩

/-- C4 (amended): the vendor guess is truncated to at most 80 characters on
both paths, and whitespace runs of two or more are collapsed to one space
on the hint-pattern path (the fallback path only strips and truncates, as
the counterexample shows); the hint-path example sapak-colon with
Acme Corp in triple spaces yields "Acme Corp". -/
theorem vendor_truncate_collapse :
    (∀ text : String, (try_parse_vendor text).length ≤ 80) ∧
    (∀ (text : String) (g : List Char), hintSearch text = some g →
      hasWsPair (try_parse_vendor text).data = false) ∧
    try_parse_vendor "ספק:   Acme   Corp" = "Acme Corp" := by
  refine ⟨?_, ?_, by decide⟩
  · intro text
    rcases try_parse_vendor_cases text with h | ⟨g, _, h⟩ | ⟨line, rest, _, _, h⟩
    · rw [h]; decide
    · rw [h, asString_length, List.length_take]
      omega
    · rw [h, asString_length, List.length_take]
      omega
  · intro text g hg
    have ht : text ≠ "" := by
      intro he; rw [he, hintSearch_empty] at hg; exact absurd hg (by simp)
    unfold try_parse_vendor
    rw [if_neg ht, hg, asString_data]
    exact hasWsPair_take (collapseGo_hasWsPair _ (Nat.le_refl _)) 80

/-- Witness for C4's amended theorem: the collapse conjunct applied at the
hint-path example text. -/
theorem vendor_truncate_collapse_witness :
    hasWsPair (try_parse_vendor "ספק:   Acme   Corp").data = false :=
  vendor_truncate_collapse.2.1 "ספק:   Acme   Corp" "Acme   Corp".data (by decide)

/-- C9 counterexample: the 80-character truncation can cut right after an
interior space, so the returned vendor can end in whitespace: after the
sapak hint, 79 letters and then a space survive the cut. -/
theorem vendor_truncation_trailing_space :
    (try_parse_vendor
      "ספק:aaaaaaaaaaaaaaaaaaaaaaaaaaaaaaaaaaaaaaaaaaaaaaaaaaaaaaaaaaaaaaaaaaaaaaaaaaaaaaa b c").data.getLast? =
      some ' ' ∧ isWs ' ' = true := by
  exact ⟨by decide, by decide⟩

/-- C9 (amended): the vendor guess never contains a newline and never
starts with whitespace; it also never ends with whitespace except when the
80-character truncation cut the candidate (so whenever the result is
shorter than 80 characters its last character is not whitespace). -/
theorem vendor_line_shape :
    (∀ text : String, '\n' ∉ (try_parse_vendor text).data) ∧
    (∀ (text : String) (c : Char),
      (try_parse_vendor text).data.head? = some c → isWs c = false) ∧
    (∀ (text : String) (c : Char), (try_parse_vendor text).data.length < 80 →
      (try_parse_vendor text).data.getLast? = some c → isWs c = false) := by
  refine ⟨?_, ?_, ?_⟩
  · intro text
    rcases try_parse_vendor_cases text with h | ⟨g, hg, h⟩ | ⟨line, rest, _, ⟨orig, ho, hline⟩, h⟩
    · rw [h]; exact List.not_mem_nil _
    · rw [h, asString_data]
      intro hmem
      have hv := List.mem_of_mem_take hmem
      rcases mem_collapseGo hv with hs | he
      · obtain ⟨r, hr⟩ := hintSearch_inv hg
        exact dotPlusAt_no_newline hr (stripList_subset _ hs)
      · exact absurd he (by decide)
    · rw [h, asString_data]
      intro hmem
      have hv := List.mem_of_mem_take hmem
      rw [hline] at hv
      have hvo := stripList_subset _ hv
      exact (splitLinesGo_no_newline [] text.data (by simp) orig ho '\n' hvo).1 rfl
  · intro text c hc
    rcases try_parse_vendor_cases text with h | ⟨g, hg, h⟩ | ⟨line, rest, _, ⟨orig, ho, hline⟩, h⟩
    · rw [h] at hc; exact absurd hc (by simp)
    · rw [h, asString_data, head?_take_pos (by omega)] at hc
      cases hs : (stripList g).head? with
      | none =>
        have : stripList g = [] := List.head?_eq_none_iff.mp hs
        rw [this] at hc
        exact absurd hc (by simp [collapseWs, collapseGo])
      | some c0 =>
        have h0 : isWs c0 = false := stripList_head_not_ws hs
        unfold collapseWs at hc
        rw [collapseGo_head_of_not_ws hs h0] at hc
        rcases Option.some.injEq .. ▸ hc with rfl
        exact h0
    · rw [h, asString_data, head?_take_pos (by omega), hline] at hc
      exact stripList_head_not_ws hc
  · intro text c hlen hc
    rcases try_parse_vendor_cases text with h | ⟨g, hg, h⟩ | ⟨line, rest, _, ⟨orig, ho, hline⟩, h⟩
    · rw [h] at hc; exact absurd hc (by simp)
    · rw [h, asString_data] at hlen hc
      have hfull : (collapseWs (stripList g)).take 80 = collapseWs (stripList g) := by
        rw [List.length_take] at hlen
        exact List.take_of_length_le (by omega)
      rw [hfull] at hc
      cases hs : (stripList g).getLast? with
      | none =>
        have : stripList g = [] := List.getLast?_eq_none_iff.mp hs
        rw [this] at hc
        exact absurd hc (by simp [collapseWs, collapseGo])
      | some c0 =>
        have h0 : isWs c0 = false := stripList_getLast_not_ws hs
        unfold collapseWs at hc
        rw [collapseGo_getLast _ c0 (Nat.le_refl _) hs h0] at hc
        rcases Option.some.injEq .. ▸ hc with rfl
        exact h0
    · rw [h, asString_data] at hlen hc
      have hfull : line.take 80 = line := by
        rw [List.length_take] at hlen
        exact List.take_of_length_le (by omega)
      rw [hfull, hline] at hc
      exact stripList_getLast_not_ws hc

/-- Witness for C9's amended theorem: the leading-character conjunct at a
concrete hint text whose result starts with a Hebrew letter. -/
theorem vendor_line_shape_witness : isWs 'י' = false :=
  vendor_line_shape.2.1 "ספק: יוסי" 'י' (by decide)

/-! ## C10: commas anywhere in the numeric group -/

/-- C10: normalize_amount deletes every comma before parsing, so a
misplaced grouping like 1,2,3 yields 123 instead of a rejection, and the
numeric capture group of the amount patterns accepts a comma at any
position after the leading digit: the bare-shekel pattern applied to
shekel-1,2,3 extracts 123, and the group consumes any string of digits and
commas that starts with a digit in full. -/
theorem normalize_commas_anywhere :
    normalize_amount "1,2,3" = some (123 : ℚ) ∧
    try_parse_amount "₪1,2,3" = some (123 : ℚ) ∧
    (∀ (d : Char) (l : List Char), d.isDigit = true →
      (∀ c ∈ l, c.isDigit = true ∨ c = ',') →
      numGroupAt (d :: l) = some (d :: l, [])) := by
  refine ⟨by with_unfolding_all decide, by with_unfolding_all decide, ?_⟩
  intro d l hd hl
  simp only [numGroupAt]
  rw [if_neg (by simp [hd])]
  have hspan : l.span (fun x => x.isDigit || x == ',') = (l, []) := by
    rw [List.span_eq_take_drop]
    have htw : l.takeWhile (fun x => x.isDigit || x == ',') = l :=
      List.takeWhile_eq_self_iff.mpr (by
        intro x hx
        rcases hl x hx with h | h
        · simp [h]
        · simp [h])
    have hdw : l.dropWhile (fun x => x.isDigit || x == ',') = [] :=
      List.dropWhile_eq_nil_iff.mpr (by
        intro x hx
        rcases hl x hx with h | h
        · simp [h]
        · simp [h])
    rw [htw, hdw]
  rw [hspan]

/-- Witness for C10: the group-consumes-all conjunct at the concrete
digits-and-commas string 1,2,3. -/
theorem normalize_commas_anywhere_witness :
    numGroupAt "1,2,3".data = some ("1,2,3".data, []) :=
  normalize_commas_anywhere.2.2 '1' [',', '2', ',', '3'] (by decide) (by decide)

/-! ## C8: the ils formatter -/

/-- The net effect of the three-step replace of ils on any character other
than X: comma and dot swap, everything else unchanged. -/
def swapCD (c : Char) : Char :=
  if c == ',' then '.' else if c == '.' then ',' else c

theorem swapSeps_eq_map {l : List Char} (h : ∀ c ∈ l, c ≠ 'X') :
    swapSeps l = l.map swapCD := by
  unfold swapSeps replaceAllC
  rw [List.map_map, List.map_map]
  refine List.map_congr_left ?_
  intro c hc
  have hx := h c hc
  by_cases h1 : c = ','
  · subst h1; rfl
  · by_cases h2 : c = '.'
    · subst h2; rfl
    · simp only [Function.comp_apply, swapCD,
        beq_iff_eq, if_neg h1, if_neg h2, if_neg hx]

theorem map_group3Rev (f : Char → Char) (sep : Char) :
    ∀ l : List Char, (group3Rev sep l).map f = group3Rev (f sep) (l.map f) := by
  intro l
  induction l using group3Rev.induct sep with
  | case1 a b c d rest ih =>
    simp only [group3Rev, List.map_cons]
    rw [ih]
    rfl
  | case2 l h =>
    have h2 : group3Rev sep l = l := by
      match l, h with
      | [], _ => rfl
      | [a], _ => rfl
      | [a, b], _ => rfl
      | [a, b, c], _ => rfl
      | a :: b :: c :: d :: rest, h => exact (h a b c d rest rfl).elim
    have h3 : group3Rev (f sep) (l.map f) = l.map f := by
      match l, h with
      | [], _ => rfl
      | [a], _ => rfl
      | [a, b], _ => rfl
      | [a, b, c], _ => rfl
      | a :: b :: c :: d :: rest, h => exact (h a b c d rest rfl).elim
    rw [h2, h3]

theorem map_group3 (f : Char → Char) (sep : Char) (ds : List Char) :
    (group3 sep ds).map f = group3 (f sep) (ds.map f) := by
  unfold group3
  rw [List.map_reverse, map_group3Rev, List.map_reverse]

theorem mem_group3Rev {sep : Char} {x : Char} :
    ∀ {l : List Char}, x ∈ group3Rev sep l → x = sep ∨ x ∈ l := by
  intro l
  induction l using group3Rev.induct sep with
  | case1 a b c d rest ih =>
    intro hx
    simp only [group3Rev, List.mem_cons] at hx
    rcases hx with rfl | rfl | rfl | hx2
    · exact Or.inr (by simp)
    · exact Or.inr (by simp)
    · exact Or.inr (by simp)
    · rcases hx2 with rfl | hx3
      · exact Or.inl rfl
      · rcases ih hx3 with h | h
        · exact Or.inl h
        · exact Or.inr (by simp [List.mem_cons] at h ⊢; tauto)
  | case2 l h =>
    intro hx
    have h2 : group3Rev sep l = l := by
      match l, h with
      | [], _ => rfl
      | [a], _ => rfl
      | [a, b], _ => rfl
      | [a, b, c], _ => rfl
      | a :: b :: c :: d :: rest, h => exact (h a b c d rest rfl).elim
    rw [h2] at hx
    exact Or.inr hx

theorem mem_group3 {sep x : Char} {ds : List Char} (h : x ∈ group3 sep ds) :
    x = sep ∨ x ∈ ds := by
  unfold group3 at h
  rcases mem_group3Rev (List.mem_reverse.mp h) with h2 | h2
  · exact Or.inl h2
  · exact Or.inr (List.mem_reverse.mp h2)

theorem digitsRevAux_lt_ten {fuel : Nat} :
    ∀ {n x : Nat}, x ∈ digitsRevAux fuel n → x < 10 := by
  induction fuel with
  | zero => intro n x hx; exact absurd hx (List.not_mem_nil x)
  | succ fuel ih =>
    intro n x hx
    unfold digitsRevAux at hx
    by_cases h : n = 0
    · rw [if_pos h] at hx; exact absurd hx (List.not_mem_nil x)
    · rw [if_neg h] at hx
      rcases List.mem_cons.mp hx with rfl | hx2
      · exact Nat.mod_lt _ (by norm_num)
      · exact ih hx2

theorem mem_natChars {c : Char} {n : Nat} (h : c ∈ natChars n) :
    ∃ k, k < 10 ∧ c = Nat.digitChar k := by
  unfold natChars at h
  by_cases hn : n = 0
  · rw [if_pos hn] at h
    rcases List.mem_singleton.mp h with rfl
    exact ⟨0, by norm_num, rfl⟩
  · rw [if_neg hn] at h
    obtain ⟨k, hk, he⟩ := List.mem_map.mp (List.mem_reverse.mp h)
    exact ⟨k, digitsRevAux_lt_ten hk, he.symm⟩

theorem digitChar_isDigit {k : Nat} (h : k < 10) :
    (Nat.digitChar k).isDigit = true := by
  interval_cases k <;> rfl

theorem swapCD_digitChar {k : Nat} (h : k < 10) :
    swapCD (Nat.digitChar k) = Nat.digitChar k := by
  interval_cases k <;> rfl

theorem digitChar_ne_X {k : Nat} (h : k < 10) : Nat.digitChar k ≠ 'X' := by
  interval_cases k <;> decide

theorem map_swapCD_natChars (n : Nat) : (natChars n).map swapCD = natChars n := by
  have h : ∀ c ∈ natChars n, swapCD c = c := by
    intro c hc
    obtain ⟨k, hk, rfl⟩ := mem_natChars hc
    exact swapCD_digitChar hk
  rw [List.map_congr_left h]
  exact List.map_id' _

/-- C8: ils is a pure function of its argument; on every non-negative
number it produces the shekel sign followed by the rounded two-decimal
rendering with the digits grouped in thousands by dots and a comma as the
decimal separator (ilsClaim, built directly from the spec's wording), and
on a non-numeric argument the caught exception yields the empty string. -/
theorem ils_formats :
    (∀ q : ℚ, 0 ≤ q → ils (.num q) = ilsClaim q) ∧ ils .nonNum = "" := by
  constructor
  · intro q hq
    have hsgn : ¬q < 0 := not_lt.mpr hq
    simp only [ils, ilsClaim, pyFormat2f, if_neg hsgn, List.nil_append]
    generalize (roundHalfEvenZ (q * 100)).natAbs = a
    have hX : ∀ c ∈ '₪' :: (group3 ',' (natChars (a / 100)) ++ '.' :: pad2 (a % 100)),
        c ≠ 'X' := by
      intro c hc
      rcases List.mem_cons.mp hc with rfl | hc2
      · decide
      · rcases List.mem_append.mp hc2 with hc3 | hc3
        · rcases mem_group3 hc3 with rfl | hc4
          · decide
          · obtain ⟨k, hk, rfl⟩ := mem_natChars hc4
            exact digitChar_ne_X hk
        · rcases List.mem_cons.mp hc3 with rfl | hc4
          · decide
          · unfold pad2 padZ at hc4
            rcases List.mem_append.mp hc4 with hc5 | hc5
            · rcases List.eq_of_mem_replicate hc5 with rfl
              decide
            · obtain ⟨k, hk, rfl⟩ := mem_natChars hc5
              exact digitChar_ne_X hk
    rw [swapSeps_eq_map hX]
    simp only [List.map_cons, List.map_append]
    rw [map_group3, map_swapCD_natChars]
    unfold pad2 padZ
    rw [List.map_append, List.map_replicate, map_swapCD_natChars]
    rfl
  · rfl

/-- Witness for C8: the formatting conjunct applied at the concrete
non-negative value 1234.5. -/
theorem ils_formats_witness :
    ils (PyVal.num (1234.5 : ℚ)) = ilsClaim (1234.5 : ℚ) :=
  ils_formats.1 (1234.5 : ℚ) (by norm_num)

/-! ## C6: normalize_amount and the decimal rendering roundtrip -/

theorem digitsRevAux_eq {fuel : Nat} :
    ∀ {n : Nat}, n ≤ fuel → digitsRevAux fuel n = Nat.digits 10 n := by
  induction fuel with
  | zero =>
    intro n h
    have : n = 0 := Nat.le_zero.mp h
    subst this
    simp [digitsRevAux]
  | succ fuel ih =>
    intro n h
    unfold digitsRevAux
    by_cases hn : n = 0
    · rw [if_pos hn, hn]
      simp
    · rw [if_neg hn]
      rw [Nat.digits_def' (by norm_num : 1 < 10) (Nat.pos_of_ne_zero hn)]
      have hlt : n / 10 < n := Nat.div_lt_self (Nat.pos_of_ne_zero hn) (by norm_num)
      rw [ih (by omega)]

theorem digitsRev_eq (n : Nat) : digitsRev n = Nat.digits 10 n :=
  digitsRevAux_eq (Nat.le_refl n)

theorem digitsVal_append (a b : List Char) :
    digitsVal (a ++ b) =
      b.foldl (fun acc c => 10 * acc + (c.toNat - 48)) (digitsVal a) := by
  unfold digitsVal
  rw [List.foldl_append]

theorem digitChar_val {k : Nat} (h : k < 10) : (Nat.digitChar k).toNat - 48 = k := by
  interval_cases k <;> rfl

theorem digitsVal_reverse_map {ds : List Nat} (h : ∀ x ∈ ds, x < 10) :
    digitsVal ((ds.map Nat.digitChar).reverse) = Nat.ofDigits 10 ds := by
  induction ds with
  | nil => rfl
  | cons d ds ih =>
    rw [List.map_cons, List.reverse_cons, digitsVal_append]
    have hd : d < 10 := h d (List.mem_cons_self ..)
    have ihh := ih (fun x hx => h x (List.mem_cons_of_mem d hx))
    rw [Nat.ofDigits_cons]
    simp only [List.foldl_cons, List.foldl_nil]
    rw [ihh, digitChar_val hd]
    omega

theorem digitsVal_natChars (n : Nat) : digitsVal (natChars n) = n := by
  unfold natChars
  by_cases hn : n = 0
  · rw [if_pos hn, hn]
    rfl
  · rw [if_neg hn, digitsRev_eq,
      digitsVal_reverse_map (fun x hx => Nat.digits_lt_base (by norm_num) hx),
      Nat.ofDigits_digits]

theorem digitsVal_padZ (w : Nat) (l : List Char) :
    digitsVal (padZ w l) = digitsVal l := by
  unfold padZ
  rw [digitsVal_append]
  have hz : ∀ k : Nat, digitsVal (List.replicate k '0') = 0 := by
    intro k
    induction k with
    | zero => rfl
    | succ k ih =>
      rw [List.replicate_succ]
      exact ih
  rw [hz (w - l.length)]
  rfl

theorem natChars_ne_nil (n : Nat) : natChars n ≠ [] := by
  unfold natChars
  by_cases hn : n = 0
  · rw [if_pos hn]; simp
  · rw [if_neg hn]
    simp only [ne_eq, List.reverse_eq_nil_iff, List.map_eq_nil_iff]
    rw [digitsRev_eq]
    exact Nat.digits_ne_nil_iff_ne_zero.mpr hn

theorem natChars_len_le {n e : Nat} (he : 1 ≤ e) (h : n < 10 ^ e) :
    (natChars n).length ≤ e := by
  unfold natChars
  by_cases hn : n = 0
  · rw [if_pos hn]; simpa using he
  · rw [if_neg hn]
    rw [List.length_reverse, List.length_map, digitsRev_eq]
    by_contra hgt
    push_neg at hgt
    have h1 := Nat.base_pow_length_digits_le 10 n (by norm_num) hn
    have h2 : (10 : Nat) ^ (e + 1) ≤ 10 ^ (Nat.digits 10 n).length :=
      Nat.pow_le_pow_right (by norm_num) (by omega)
    have h3 : (10 : Nat) * n < 10 * 10 ^ e := by omega
    rw [← pow_succ'] at h3
    omega

theorem isDigit_facts {c : Char} (h : c.isDigit = true) :
    c ≠ ',' ∧ isWs c = false ∧ c ≠ '_' ∧ c ≠ '.' ∧ c ≠ '+' ∧ c ≠ '-' ∧
      c ≠ 'e' ∧ c ≠ 'E' := by
  have hws : isWs c = false := by
    by_contra hw
    have hw2 : isWs c = true := by simpa using hw
    unfold isWs at hw2
    simp only [Bool.or_eq_true, beq_iff_eq] at hw2
    rcases hw2 with ((((rfl | rfl) | rfl) | rfl) | rfl) | rfl <;>
      exact absurd h (by decide)
  refine ⟨?_, hws, ?_, ?_, ?_, ?_, ?_, ?_⟩ <;>
    (intro he; subst he; exact absurd h (by decide))

theorem natChars_all_digit {n : Nat} : ∀ c ∈ natChars n, c.isDigit = true := by
  intro c hc
  obtain ⟨k, hk, rfl⟩ := mem_natChars hc
  exact digitChar_isDigit hk

/-- digitRunU consumes exactly a block of digit characters when what
follows starts with neither a digit nor an underscore. -/
theorem digitRunUAux_digits {l r : List Char} (hl : ∀ c ∈ l, c.isDigit = true)
    (hr : ∀ h, r.head? = some h → h.isDigit = false ∧ h ≠ '_') :
    digitRunUAux (l ++ r) = (l, r) := by
  induction l with
  | nil =>
    cases r with
    | nil => rfl
    | cons c rest =>
      obtain ⟨h1, h2⟩ := hr c rfl
      simp only [List.nil_append]
      unfold digitRunUAux
      rw [if_neg (by simp [h1]), if_neg (by simpa using h2)]
  | cons c l ih =>
    have hc : c.isDigit = true := hl c (List.mem_cons_self ..)
    simp only [List.cons_append]
    unfold digitRunUAux
    rw [if_pos hc, ih (fun x hx => hl x (List.mem_cons_of_mem c hx))]

theorem digitRunU_digits {l r : List Char} (hl : ∀ c ∈ l, c.isDigit = true)
    (hne : l ≠ [])
    (hr : ∀ h, r.head? = some h → h.isDigit = false ∧ h ≠ '_') :
    digitRunU (l ++ r) = (l, r) := by
  cases l with
  | nil => exact absurd rfl hne
  | cons c l =>
    have hc : c.isDigit = true := hl c (List.mem_cons_self ..)
    simp only [List.cons_append, digitRunU]
    rw [if_pos hc, digitRunUAux_digits (fun x hx => hl x (List.mem_cons_of_mem c hx)) hr]

theorem filter_no_comma {l : List Char} (h : ∀ c ∈ l, c ≠ ',') :
    l.filter (fun c => c != ',') = l :=
  List.filter_eq_self.mpr (fun c hc => by simpa using h c hc)

theorem stripList_no_ws {l : List Char} (h : ∀ c ∈ l, isWs c = false) :
    stripList l = l := by
  unfold stripList
  have h1 : l.dropWhile isWs = l := by
    cases l with
    | nil => rfl
    | cons c cs => rw [List.dropWhile_cons_of_neg (by simp [h c (List.mem_cons_self ..)])]
  rw [h1]
  exact List.rdropWhile_eq_self_iff.mpr (by
    intro hne
    have := h _ (List.getLast_mem hne)
    simp [this])

/-- A number that divides some power of 10 divides the 10-power of itself:
its factorization is supported on 2 and 5 with exponents below itself. -/
theorem dvd_ten_pow_self {d k : Nat} (hd : d ≠ 0) (h : d ∣ 10 ^ k) :
    d ∣ 10 ^ d := by
  rw [← Nat.factorization_le_iff_dvd hd (pow_ne_zero _ (by norm_num))]
  rw [← Nat.factorization_le_iff_dvd hd (pow_ne_zero _ (by norm_num))] at h
  intro p
  have hk := h p
  rw [Nat.factorization_pow] at hk ⊢
  simp only [Finsupp.smul_apply, smul_eq_mul] at hk ⊢
  by_cases h10 : (Nat.factorization 10) p = 0
  · rw [h10] at hk ⊢
    omega
  · have hlt : d.factorization p < d := Nat.factorization_lt p hd
    have h1 : 1 ≤ (Nat.factorization 10) p := Nat.one_le_iff_ne_zero.mpr h10
    calc d.factorization p ≤ d * 1 := by omega
      _ ≤ d * (Nat.factorization 10) p := Nat.mul_le_mul_left d h1

theorem denExp_pos (d : Nat) : 1 ≤ denExp d := by
  unfold denExp
  cases (List.range (d + 1)).find? (fun i => 10 ^ i % d == 0) with
  | none => exact Nat.le_refl 1
  | some i => exact Nat.le_max_left 1 i

theorem denExp_dvd {d k : Nat} (hd : d ≠ 0) (h : d ∣ 10 ^ k) :
    d ∣ 10 ^ denExp d := by
  have hdd : d ∣ 10 ^ d := dvd_ten_pow_self hd h
  unfold denExp
  cases hf : (List.range (d + 1)).find? (fun i => 10 ^ i % d == 0) with
  | none =>
    exfalso
    have hmem := List.find?_eq_none.mp hf d (List.mem_range.mpr (by omega))
    simp only [beq_iff_eq] at hmem
    exact hmem (Nat.mod_eq_zero_of_dvd hdd)
  | some i =>
    have hp := List.find?_some hf
    simp only [beq_iff_eq] at hp
    have hdvd : d ∣ 10 ^ i := Nat.dvd_of_mod_eq_zero hp
    exact hdvd.trans (Nat.pow_dvd_pow 10 (Nat.le_max_right 1 i))

theorem padZ_all_digit {w n : Nat} : ∀ c ∈ padZ w (natChars n), c.isDigit = true := by
  intro c hc
  unfold padZ at hc
  rcases List.mem_append.mp hc with h | h
  · rcases List.eq_of_mem_replicate h with rfl
    decide
  · exact natChars_all_digit c h

theorem padZ_len {w : Nat} {l : List Char} (h : l.length ≤ w) :
    (padZ w l).length = w := by
  unfold padZ
  rw [List.length_append, List.length_replicate]
  omega

/-- The float model applied to a rendered decimal string: optional minus
sign, integer digits, a dot, and e fraction digits parse back to the
expected scaled integer. -/
theorem pyFloatMag_render (I F e : Nat) (he : 1 ≤ e) (hF : F < 10 ^ e) :
    pyFloatMag (natChars I ++ '.' :: padZ e (natChars F)) =
      some (((I * 10 ^ e + F : Nat) : Int), e) := by
  have hIC := natChars_ne_nil I
  have hICd := @natChars_all_digit I
  have hFCd := @padZ_all_digit e F
  have hFlen : (padZ e (natChars F)).length = e :=
    padZ_len (natChars_len_le he hF)
  have hFne : padZ e (natChars F) ≠ [] := by
    intro h0
    rw [h0] at hFlen
    simp at hFlen
    omega
  have hrunI : digitRunU (natChars I ++ '.' :: padZ e (natChars F)) =
      (natChars I, '.' :: padZ e (natChars F)) :=
    digitRunU_digits hICd hIC (by
      intro h hh
      simp only [List.head?_cons, Option.some.injEq] at hh
      subst hh
      exact ⟨rfl, by decide⟩)
  have hrunF : digitRunU (padZ e (natChars F) ++ []) =
      (padZ e (natChars F), []) :=
    digitRunU_digits hFCd hFne (by intro h hh; simp at hh)
  rw [List.append_nil] at hrunF
  have hvalI : digitsVal (natChars I) = I := digitsVal_natChars I
  have hvalF : digitsVal (padZ e (natChars F)) = F := by
    rw [digitsVal_padZ, digitsVal_natChars]
  simp only [pyFloatMag]
  rw [hrunI]
  try dsimp only
  rw [if_pos (by decide : (('.' == '.') = true)), hrunF]
  try dsimp only
  rw [if_neg (by simp [hIC])]
  try dsimp only
  rw [if_pos rfl, if_pos (by norm_num : (0 : Int) ≤ 0)]
  rw [hvalI, hvalF, hFlen]
  simp

theorem pyFloatParts_render (P : Prop) [Decidable P] (I F e : Nat)
    (he : 1 ≤ e) (hF : F < 10 ^ e) :
    pyFloatParts ((if P then ['-'] else []) ++
        (natChars I ++ '.' :: padZ e (natChars F))) =
      some ((if P then -1 else 1) * ((I * 10 ^ e + F : Nat) : Int), e) := by
  have hmag := pyFloatMag_render I F e he hF
  by_cases hp : P
  · rw [if_pos hp, if_pos hp]
    simp only [List.cons_append, List.nil_append, pyFloatParts]
    rw [if_neg (by decide), if_pos (by decide), hmag]
    simp only [Option.map_some']
    rw [neg_one_mul]
  · rw [if_neg hp, if_neg hp]
    simp only [List.nil_append]
    obtain ⟨c, ic, hic⟩ := List.exists_cons_of_ne_nil (natChars_ne_nil I)
    have hcd : c.isDigit = true := by
      apply natChars_all_digit c
      rw [hic]
      exact List.mem_cons_self ..
    obtain ⟨_, _, _, _, hplus, hminus, _, _⟩ := isDigit_facts hcd
    rw [hic, List.cons_append]
    simp only [pyFloatParts]
    rw [if_neg (by simp [hplus]), if_neg (by simp [hminus]),
      ← List.cons_append, ← hic, hmag, one_mul]

theorem renderDec_chars {q : ℚ} :
    ∀ c ∈ (renderDec q).data, c ≠ ',' ∧ isWs c = false := by
  intro c hc
  unfold renderDec at hc
  rw [asString_data] at hc
  rcases List.mem_append.mp hc with h1 | h1
  · rcases List.mem_append.mp h1 with h2 | h2
    · by_cases hq : q < 0
      · rw [if_pos hq] at h2
        rcases List.mem_singleton.mp h2 with rfl
        exact ⟨by decide, by decide⟩
      · rw [if_neg hq] at h2
        exact absurd h2 (List.not_mem_nil c)
    · have := natChars_all_digit c h2
      obtain ⟨h3, h4, _⟩ := isDigit_facts this
      exact ⟨h3, h4⟩
  · rcases List.mem_cons.mp h1 with rfl | h2
    · exact ⟨by decide, by decide⟩
    · have := padZ_all_digit c h2
      obtain ⟨h3, h4, _⟩ := isDigit_facts this
      exact ⟨h3, h4⟩

/-- Parsing the rendered decimal form of a rational whose denominator
divides a power of ten returns exactly that rational. -/
theorem normalize_renderDec {q : ℚ} (hk : ∃ k, (q.den : Nat) ∣ 10 ^ k) :
    normalize_amount (renderDec q) = some q := by
  obtain ⟨k, hdvd10⟩ := hk
  have hd0 : q.den ≠ 0 := q.den_nz
  have he1 := denExp_pos q.den
  have hdvd := denExp_dvd hd0 hdvd10
  unfold normalize_amount
  have hclean := @renderDec_chars q
  rw [filter_no_comma (fun c hc => (hclean c hc).1),
    stripList_no_ws (fun c hc => (hclean c hc).2)]
  unfold renderDec
  rw [asString_data, List.append_assoc]
  rw [pyFloatParts_render (q < 0)
    (q.num.natAbs * (10 ^ denExp q.den / q.den) / 10 ^ denExp q.den)
    (q.num.natAbs * (10 ^ denExp q.den / q.den) % 10 ^ denExp q.den) (denExp q.den) he1
    (Nat.mod_lt _ (by positivity))]
  rw [Option.map_some']
  congr 1
  unfold partsVal
  rw [mul_comm (q.num.natAbs * (10 ^ denExp q.den / q.den) / 10 ^ denExp q.den) (10 ^ denExp q.den),
    Nat.div_add_mod]
  have hden : ((q.den : ℚ)) ≠ 0 := by exact_mod_cast hd0
  have hpow : ((10 : ℚ) ^ denExp q.den) ≠ 0 := by positivity
  have hcast : ((q.num.natAbs * (10 ^ denExp q.den / q.den) : Nat) : ℚ) =
      (q.num.natAbs : ℚ) * ((10 : ℚ) ^ denExp q.den / (q.den : ℚ)) := by
    rw [Nat.cast_mul, Nat.cast_div hdvd hden]
    push_cast
    ring
  have key : ((q.num.natAbs * (10 ^ denExp q.den / q.den) : Nat) : ℚ) / (10 : ℚ) ^ denExp q.den =
      (q.num.natAbs : ℚ) / (q.den : ℚ) := by
    rw [hcast]
    field_simp
    ring
  by_cases hq : q < 0
  · rw [if_pos hq]
    have h1 : ((q.num.natAbs : ℕ) : ℤ) = -q.num :=
      Int.ofNat_natAbs_of_nonpos (Rat.num_nonpos.mpr hq.le)
    have hnum : ((q.num.natAbs : ℕ) : ℚ) = -((q.num : ℤ) : ℚ) := by
      rw [← @Int.cast_natCast ℚ _ _, h1, Int.cast_neg]
    rw [Int.cast_mul, Int.cast_natCast, show (((-1 : ℤ)) : ℚ) = -1 by norm_num,
      neg_one_mul, neg_div, key, hnum, neg_div, neg_neg]
    exact Rat.num_div_den q
  · rw [if_neg hq]
    have h1 : ((q.num.natAbs : ℕ) : ℤ) = q.num :=
      Int.natAbs_of_nonneg (Rat.num_nonneg.mpr (not_lt.mp hq))
    have hnum : ((q.num.natAbs : ℕ) : ℚ) = ((q.num : ℤ) : ℚ) := by
      rw [← @Int.cast_natCast ℚ _ _, h1]
    rw [Int.cast_mul, Int.cast_natCast, show (((1 : ℤ)) : ℚ) = 1 by norm_num,
      one_mul, key, hnum]
    exact Rat.num_div_den q

/-- C6: normalize_amount strips thousands-separator commas and whitespace
and parses a decimal number: 1,234.56 yields 1234.56; a non-numeric string
like abc yields no value instead of an error; and normalizing the decimal
string form of any previous result returns the same value. -/
theorem normalize_amount_spec :
    normalize_amount "1,234.56" = some (1234.56 : ℚ) ∧
    normalize_amount "abc" = none ∧
    (∀ (s : String) (q : ℚ), normalize_amount s = some q →
      normalize_amount (renderDec q) = some q) := by
  refine ⟨?_, by decide, ?_⟩
  · have hp : pyFloatParts (stripList (("1,234.56" : String).data.filter
        (fun c => c != ','))) = some (123456, 2) := by decide
    unfold normalize_amount
    rw [hp]
    simp only [Option.map_some', Option.some.injEq]
    norm_num [partsVal]
  intro s q h
  apply normalize_renderDec
  unfold normalize_amount at h
  cases hp : pyFloatParts (stripList (s.data.filter (fun c => c != ','))) with
  | none => rw [hp] at h; exact absurd h (by simp)
  | some p =>
    rw [hp] at h
    simp only [Option.map_some', Option.some.injEq] at h
    have hq : q = Rat.divInt p.1 ((10 : ℤ) ^ p.2) := by
      rw [Rat.divInt_eq_div, ← h]
      unfold partsVal
      push_cast
      ring
    have hdd := Rat.den_dvd p.1 ((10 : ℤ) ^ p.2)
    rw [← hq] at hdd
    refine ⟨p.2, ?_⟩
    have h2 : ((q.den : ℤ)) ∣ ((10 ^ p.2 : ℕ) : ℤ) := by
      push_cast
      exact hdd
    exact_mod_cast h2

/-- Witness for C6: the idempotence conjunct applied at the concrete input
1,234.56, whose hypothesis is discharged by the theorem's own first
conjunct. -/
theorem normalize_amount_spec_witness :
    normalize_amount (renderDec (1234.56 : ℚ)) = some (1234.56 : ℚ) :=
  normalize_amount_spec.2.2 "1,234.56" (1234.56 : ℚ) normalize_amount_spec.1

end ExpenseApp
